import Mathlib

/-!
Verification of the pFIRE elastic image-registration core against its
natural-language specification.

The C++ sources are shallowly embedded: PETSc vectors become total functions
into `ℚ`, machine doubles become `ℚ`, the distributed mesh is modelled as a
single rank owning the whole domain, and fallible constructors return
`Except String _`.
-/

namespace PFire

/-! ## Generic iterator routines (src/iterator_routines.hpp) -/

/-- Source: `all_true_varlen` from iterator_routines.hpp: conjunction of `p` over the
common prefix of the two lists (stops at the shorter list, ignoring the rest). -/
def all_true_varlen {α β : Type} (p : α → β → Bool) : List α → List β → Bool
  | a :: as, b :: bs => p a b && all_true_varlen p as bs
  | _, _ => true

/-- Source: `all_true` from iterator_routines.hpp: conjunction of `p` over both lists,
returning `false` when the lengths differ. -/
def all_true {α β : Type} (p : α → β → Bool) : List α → List β → Bool
  | a :: as, b :: bs => p a b && all_true p as bs
  | [], [] => true
  | _, _ => false

/-! ## Node-spacing cascade (Elastic::calculate_node_spacings, src/elastic.cpp) -/

/-- The while-loop guard of `calculate_node_spacings`:
`all_true_varlen(currspc, imshape, [](floating x, integer y){ return (y / x) > 2.0; })`. -/
def spacingCond (imshape : List ℤ) (spc : List ℚ) : Bool :=
  all_true_varlen (fun (x : ℚ) (y : ℤ) => decide ((y : ℚ) / x > 2)) spc imshape

/-- The loop body `std::transform(currspc, ..., [](floating a){ return a * 2; })`. -/
def doubleSpacing (spc : List ℚ) : List ℚ :=
  spc.map (fun a => a * 2)

/-- Source: `Elastic::calculate_node_spacings` (src/elastic.cpp:180-192): push the
user-supplied final spacing, then, while every dimension satisfies
`Ni / sᵢ > 2`, double the spacing and push it.  The C++ while-loop does not
terminate on degenerate inputs (e.g. a zero spacing), so the loop is embedded
with explicit `fuel`; when the fuel runs out the list built so far is returned
(the theorems record when the loop exited through its own guard). -/
def calculate_node_spacings (imshape : List ℤ) (fuel : ℕ) (spc : List ℚ) :
    List (List ℚ) :=
  match fuel with
  | 0 => [spc]
  | fuel + 1 =>
    if spacingCond imshape spc then
      spc :: calculate_node_spacings imshape fuel (doubleSpacing spc)
    else
      [spc]

theorem calculate_node_spacings_ne_nil (imshape : List ℤ) (fuel : ℕ) (spc : List ℚ) :
    calculate_node_spacings imshape fuel spc ≠ [] := by
  cases fuel with
  | zero => simp [calculate_node_spacings]
  | succ n =>
    by_cases h : spacingCond imshape spc = true <;>
      simp [calculate_node_spacings, h]

theorem calculate_node_spacings_head (imshape : List ℤ) (fuel : ℕ) (spc : List ℚ) :
    (calculate_node_spacings imshape fuel spc).head? = some spc := by
  cases fuel with
  | zero => rfl
  | succ n =>
    by_cases h : spacingCond imshape spc = true <;>
      simp [calculate_node_spacings, h]

theorem cascade_chain (imshape : List ℤ) (fuel : ℕ) :
    ∀ spc : List ℚ, (∀ x ∈ spc, 0 < x) →
      List.Chain' (fun a b => List.Forall₂ (fun x y : ℚ => x < y) a b)
        (calculate_node_spacings imshape fuel spc) := by
  induction fuel with
  | zero => intro spc _; simp [calculate_node_spacings]
  | succ n ih =>
    intro spc hpos
    by_cases h : spacingCond imshape spc = true
    · rw [calculate_node_spacings, if_pos h]
      have hpos' : ∀ x ∈ doubleSpacing spc, 0 < x := by
        intro x hx
        simp only [doubleSpacing, List.mem_map] at hx
        obtain ⟨a, ha, rfl⟩ := hx
        have := hpos a ha
        linarith
      refine List.chain'_cons'.mpr ⟨?_, ih (doubleSpacing spc) hpos'⟩
      intro b hb
      rw [calculate_node_spacings_head] at hb
      cases hb
      rw [doubleSpacing, List.forall₂_map_right_iff]
      refine List.forall₂_same.mpr ?_
      intro x hx
      have := hpos x hx
      linarith
    · rw [calculate_node_spacings, if_neg h]
      simp

theorem cascade_cond_init (imshape : List ℤ) (fuel : ℕ) :
    ∀ spc : List ℚ, ∀ i : ℕ,
      i + 1 < (calculate_node_spacings imshape fuel spc).length →
      spacingCond imshape ((calculate_node_spacings imshape fuel spc).getD i []) =
        true := by
  induction fuel with
  | zero => intro spc i h; simp [calculate_node_spacings] at h
  | succ n ih =>
    intro spc i h
    by_cases hc : spacingCond imshape spc = true
    · rw [calculate_node_spacings, if_pos hc] at h ⊢
      cases i with
      | zero => simpa using hc
      | succ j =>
        simp only [List.length_cons, Nat.add_lt_add_iff_right] at h
        simpa using ih (doubleSpacing spc) j h
    · rw [calculate_node_spacings, if_neg hc] at h
      simp at h

theorem cascade_exit (imshape : List ℤ) (fuel : ℕ) :
    ∀ spc last : List ℚ,
      (calculate_node_spacings imshape fuel spc).getLast? = some last →
      spacingCond imshape last = false ∨
        (calculate_node_spacings imshape fuel spc).length = fuel + 1 := by
  induction fuel with
  | zero =>
    intro spc last _
    right
    simp [calculate_node_spacings]
  | succ n ih =>
    intro spc last hlast
    by_cases hc : spacingCond imshape spc = true
    · rw [calculate_node_spacings, if_pos hc] at hlast ⊢
      obtain ⟨b, t, hbt⟩ :=
        List.exists_cons_of_ne_nil (calculate_node_spacings_ne_nil imshape n (doubleSpacing spc))
      rw [hbt, List.getLast?_cons_cons] at hlast
      rcases ih (doubleSpacing spc) last (by rw [hbt]; exact hlast) with h | h
      · exact Or.inl h
      · right
        simp [h]
    · rw [calculate_node_spacings, if_neg hc] at hlast ⊢
      simp only [List.getLast?_singleton, Option.some.injEq] at hlast
      cases hlast
      exact Or.inl (by simpa using hc)

/-- C1 (amended): `calculate_node_spacings` starts from the user-supplied final
spacing and repeatedly doubles it while `Ni / sᵢ > 2` holds in every dimension
(`spacingCond`).  For positive user spacings the produced list (finest first,
consumed in reverse — coarsest to finest — by `autoregister`): (1) begins with
the user-supplied spacing, which is therefore the final generation; (2) is
strictly increasing componentwise, i.e. the generations are strictly decreasing
from coarsest to finest; (3) every produced spacing except the LAST-produced
(the coarsest generation) satisfies `Ni / sᵢ > 2` in every dimension; and
(4) the coarsest generation fails `Ni / sᵢ > 2` in some dimension whenever the
loop exited through its guard rather than by fuel exhaustion.  (The claim's
exemption of the FINAL generation is refuted by
`calculate_node_spacings_claim_false`.) -/
theorem calculate_node_spacings_spec (imshape : List ℤ) (spc : List ℚ) (fuel : ℕ)
    (hpos : ∀ x ∈ spc, 0 < x) :
    (calculate_node_spacings imshape fuel spc).head? = some spc ∧
    List.Chain' (fun a b => List.Forall₂ (fun x y : ℚ => x < y) a b)
      (calculate_node_spacings imshape fuel spc) ∧
    (∀ i : ℕ, i + 1 < (calculate_node_spacings imshape fuel spc).length →
      spacingCond imshape ((calculate_node_spacings imshape fuel spc).getD i []) =
        true) ∧
    (∀ last : List ℚ,
      (calculate_node_spacings imshape fuel spc).getLast? = some last →
      spacingCond imshape last = false ∨
        (calculate_node_spacings imshape fuel spc).length = fuel + 1) :=
  ⟨calculate_node_spacings_head imshape fuel spc,
   cascade_chain imshape fuel spc hpos,
   cascade_cond_init imshape fuel spc,
   cascade_exit imshape fuel spc⟩

theorem cascade_eval_example :
    calculate_node_spacings [8, 8, 8] 10 [1, 1, 1] = [[1, 1, 1], [2, 2, 2], [4, 4, 4]] := by
  simp [calculate_node_spacings, spacingCond, all_true_varlen, doubleSpacing]
  norm_num

theorem cascade_cond_441_false : spacingCond [8, 8, 8] [4, 4, 4] = false := by
  simp [spacingCond, all_true_varlen]
  norm_num

/-- C1 counterexample: for an 8×8×8 image with user-supplied spacing (1,1,1) the
cascade is [[1,1,1],[2,2,2],[4,4,4]]; consumed coarsest to finest, the coarsest
generation (4,4,4) is NOT the final one, yet it fails `Ni / sᵢ > 2` (8/4 = 2).
This refutes the claim that every generation except possibly the final one
satisfies `Ni / sᵢ > 2` in every dimension. -/
theorem calculate_node_spacings_claim_false :
    ¬ (∀ g ∈ (calculate_node_spacings [8, 8, 8] 10 [1, 1, 1]).reverse.dropLast,
        spacingCond [8, 8, 8] g = true) := by
  intro hall
  have hmem : ([4, 4, 4] : List ℚ) ∈
      (calculate_node_spacings [8, 8, 8] 10 [1, 1, 1]).reverse.dropLast := by
    rw [cascade_eval_example]
    simp
  have h4 := hall [4, 4, 4] hmem
  rw [cascade_cond_441_false] at h4
  cases h4

/-- C1 witness: the amended cascade theorem applied to the concrete 8×8×8 image
with user-supplied spacing (1,1,1). -/
theorem calculate_node_spacings_spec_witness :
    (∀ x ∈ ([1, 1, 1] : List ℚ), 0 < x) ∧
    ((calculate_node_spacings [8, 8, 8] 10 [1, 1, 1]).head? = some [1, 1, 1] ∧
      List.Chain' (fun a b => List.Forall₂ (fun x y : ℚ => x < y) a b)
        (calculate_node_spacings [8, 8, 8] 10 [1, 1, 1]) ∧
      (∀ i : ℕ, i + 1 < (calculate_node_spacings [8, 8, 8] 10 [1, 1, 1]).length →
        spacingCond [8, 8, 8]
          ((calculate_node_spacings [8, 8, 8] 10 [1, 1, 1]).getD i []) = true) ∧
      (∀ last : List ℚ,
        (calculate_node_spacings [8, 8, 8] 10 [1, 1, 1]).getLast? = some last →
        spacingCond [8, 8, 8] last = false ∨
          (calculate_node_spacings [8, 8, 8] 10 [1, 1, 1]).length = 10 + 1)) ∧
    (spacingCond [8, 8, 8] [4, 4, 4] = false ∨
      (calculate_node_spacings [8, 8, 8] 10 [1, 1, 1]).length = 10 + 1) :=
  ⟨by norm_num,
   calculate_node_spacings_spec [8, 8, 8] [1, 1, 1] 10 (by norm_num),
   (calculate_node_spacings_spec [8, 8, 8] [1, 1, 1] 10 (by norm_num)).2.2.2 [4, 4, 4]
     (by rw [cascade_eval_example]; rfl)⟩

/-! ## Image data model (src/image.cpp) -/

/-- Model of a pFIRE `Image`: the 3-D shape held in `m_shape` and the global
sample buffer (`m_globalvec`), one rational sample per grid cell. -/
structure ImageGrid where
  nx : ℕ
  ny : ℕ
  nz : ℕ
  samples : Fin nx × Fin ny × Fin nz → ℚ

/-- Source: `Image::size()`: `m_shape[0] * m_shape[1] * m_shape[2]` (image.hpp). -/
def ImageGrid.size (img : ImageGrid) : ℕ := img.nx * img.ny * img.nz

/-- Source: `VecSum` of the global sample buffer. -/
def ImageGrid.vecSum (img : ImageGrid) : ℚ := Finset.univ.sum img.samples

/-- Source: `Image::normalize()` (src/image.cpp:120-130): `VecSum(globalvec, &norm)`;
`norm = size / norm`; `VecScale(globalvec, norm)`; returns `norm`. -/
def ImageGrid.normalize (img : ImageGrid) : ℚ × ImageGrid :=
  let norm := (img.size : ℚ) / img.vecSum
  (norm, { img with samples := fun p => img.samples p * norm })

/-- C6: for an image whose global sample sum is nonzero, `normalize` returns
the factor `s = N / Σ samples` (N = Nx·Ny·Nz), multiplies every sample by `s`,
and afterwards the sample sum equals `N`, so the mean intensity is 1. -/
theorem ImageGrid.normalize_spec (img : ImageGrid) (hsum : img.vecSum ≠ 0) :
    img.normalize.1 = (img.size : ℚ) / img.vecSum ∧
    (∀ p, img.normalize.2.samples p =
      img.samples p * ((img.size : ℚ) / img.vecSum)) ∧
    img.normalize.2.vecSum = (img.size : ℚ) ∧
    (0 < img.size → img.normalize.2.vecSum / img.normalize.2.size = 1) := by
  have hscaled : img.normalize.2.vecSum = (img.size : ℚ) := by
    simp only [ImageGrid.normalize, ImageGrid.vecSum, ImageGrid.size]
    rw [← Finset.sum_mul]
    have : Finset.univ.sum img.samples ≠ 0 := hsum
    field_simp [ImageGrid.vecSum, ImageGrid.size] at this ⊢
  refine ⟨rfl, fun p => rfl, hscaled, fun hN => ?_⟩
  have hsz : img.normalize.2.size = img.size := rfl
  rw [hscaled, hsz, div_self (Nat.cast_ne_zero.mpr hN.ne')]

/-- Concrete 1×1×1 image with the single sample 2, for witnesses. -/
def exampleImage : ImageGrid := ⟨1, 1, 1, fun _ => 2⟩

/-- C6 witness: `normalize` on the concrete image `exampleImage`. -/
theorem ImageGrid.normalize_spec_witness :
    exampleImage.vecSum ≠ 0 ∧
    (exampleImage.normalize.1 =
        (exampleImage.size : ℚ) / exampleImage.vecSum ∧
      (∀ p, exampleImage.normalize.2.samples p =
        exampleImage.samples p *
          ((exampleImage.size : ℚ) / exampleImage.vecSum)) ∧
      exampleImage.normalize.2.vecSum = (exampleImage.size : ℚ) ∧
      (0 < exampleImage.size →
        exampleImage.normalize.2.vecSum / exampleImage.normalize.2.size = 1)) ∧
    exampleImage.normalize.2.vecSum / exampleImage.normalize.2.size = 1 := by
  have hsum : exampleImage.vecSum ≠ 0 := by
    simp [ImageGrid.vecSum, exampleImage]
  refine ⟨hsum, ImageGrid.normalize_spec exampleImage hsum, ?_⟩
  exact (ImageGrid.normalize_spec exampleImage hsum).2.2.2 (by simp [exampleImage, ImageGrid.size])

/-- The tail of `Image::Image` (src/image.cpp:54-57): once `m_shape` has three
entries, `if (m_shape[2] == 1) m_ndim = 2`. -/
def imageFinishConstruct (mshape : List ℤ) (ndim : ℕ) : List ℤ × ℕ :=
  if mshape.getD 2 0 = 1 then (mshape, 2) else (mshape, ndim)

/-- Source: `Image::Image(const intvector& shape, MPI_Comm)` (src/image.cpp:37-61):
`m_ndim` starts as `shape.size()` and `m_shape` as a copy of `shape`; a
2-element shape gets `1` appended, any length other than 2 or 3 throws
`"image shape should be 2D or 3D"`, and a stored third extent of 1 forces
`m_ndim = 2`.  Returns `(m_shape, m_ndim)`. -/
def imageConstruct (shape : List ℤ) : Except String (List ℤ × ℕ) :=
  if shape.length ≠ 3 then
    if shape.length = 2 then
      Except.ok (imageFinishConstruct (shape ++ [1]) shape.length)
    else
      Except.error "image shape should be 2D or 3D"
  else
    Except.ok (imageFinishConstruct shape shape.length)

/-- C10: image construction accepts only 2-D or 3-D shape vectors and throws a
runtime error for any other length; a 2-element shape is stored as 3-D with
`Nz = 1`; and every successfully constructed image stores a 3-entry shape and
reports `ndim() = 2` whenever its third extent is 1, so no image with unit z
extent is treated as genuinely 3-D. -/
theorem imageConstruct_spec :
    (∀ shape : List ℤ, shape.length ≠ 2 → shape.length ≠ 3 →
      imageConstruct shape = Except.error "image shape should be 2D or 3D") ∧
    (∀ shape : List ℤ, shape.length = 2 →
      imageConstruct shape = Except.ok (shape ++ [1], 2)) ∧
    (∀ (shape mshape : List ℤ) (ndim : ℕ),
      imageConstruct shape = Except.ok (mshape, ndim) →
      mshape.length = 3 ∧ (mshape.getD 2 0 = 1 → ndim = 2)) := by
  refine ⟨?_, ?_, ?_⟩
  · intro shape h2 h3
    rw [imageConstruct, if_pos h3, if_neg h2]
  · intro shape h2
    obtain ⟨a, b, rfl⟩ : ∃ a b, shape = [a, b] := by
      match shape, h2 with
      | [a, b], _ => exact ⟨a, b, rfl⟩
    rfl
  · intro shape mshape ndim h
    by_cases h3 : shape.length = 3
    · rw [imageConstruct, if_neg (by simp [h3])] at h
      obtain ⟨x, y, z, rfl⟩ : ∃ x y z, shape = [x, y, z] := by
        match shape, h3 with
        | [x, y, z], _ => exact ⟨x, y, z, rfl⟩
      rw [imageFinishConstruct] at h
      by_cases hz : ([x, y, z] : List ℤ).getD 2 0 = 1
      · rw [if_pos hz] at h
        cases h
        exact ⟨rfl, fun _ => rfl⟩
      · rw [if_neg hz] at h
        cases h
        exact ⟨rfl, fun hc => absurd hc hz⟩
    · by_cases h2 : shape.length = 2
      · obtain ⟨a, b, rfl⟩ : ∃ a b, shape = [a, b] := by
          match shape, h2 with
          | [a, b], _ => exact ⟨a, b, rfl⟩
        rw [imageConstruct, if_pos (by simp), if_pos (by simp)] at h
        rw [imageFinishConstruct, if_pos (by simp)] at h
        cases h
        exact ⟨rfl, fun _ => rfl⟩
      · rw [imageConstruct, if_pos h3, if_neg h2] at h
        cases h

/-- C10 witness: the constructor on three concrete shapes — a 1-element shape
is rejected, a 2-element shape is stored as 3-D with `Nz = 1` and `ndim = 2`,
and a 3-element shape with unit z reports `ndim = 2`. -/
theorem imageConstruct_spec_witness :
    imageConstruct [7] = Except.error "image shape should be 2D or 3D" ∧
    imageConstruct [4, 5] = Except.ok ([4, 5, 1], 2) ∧
    (([6, 6, 1] : List ℤ).length = 3 ∧
      (([6, 6, 1] : List ℤ).getD 2 0 = 1 → 2 = 2)) :=
  ⟨imageConstruct_spec.1 [7] (by simp) (by simp),
   imageConstruct_spec.2.1 [4, 5] rfl,
   imageConstruct_spec.2.2 [6, 6, 1] [6, 6, 1] 2 (by rfl)⟩

/-! ## Executable surface (src/pfire.cpp, Image::load_file in src/image.cpp) -/

/-- Source: `Image::load_file` (src/image.cpp:82-119), modelled on the shapes: the
loader probes `loaderShape`; with an `existing` image the probed shape must
equal the existing image's stored shape under `all_true(…, equal_to)` or a
runtime error is thrown, and the existing mesh is duplicated; without one, a
new image is constructed from the probed shape.  Returns the stored shape of
the produced image. -/
def image_load_file (loaderShape : List ℤ) (existing : Option (List ℤ)) :
    Except String (List ℤ) :=
  match existing with
  | some exShape =>
    if all_true (fun a b : ℤ => a == b) loaderShape exShape then
      Except.ok exShape
    else
      Except.error "New image must have same shape as existing"
  | none => (imageConstruct loaderShape).map Prod.fst

/-- Outcome of `mainflow` (src/pfire.cpp:46-87): either a load failed (the
error is caught, reported to stderr, and `mainflow` returns early) or both
loads succeeded and the registrar ran. -/
inductive MainflowResult where
  | fixedLoadFailed (msg : String)
  | movedLoadFailed (msg : String)
  | registrarRan (fixedShape movedShape : List ℤ)
deriving DecidableEq

/-- Source: `mainflow` (src/pfire.cpp:46-87) on the load outcomes: load the fixed
image, then the moved image checked against the fixed one; a failure is caught
and ends the flow before `Elastic` is ever constructed. -/
def mainflow (fixedLoaderShape movedLoaderShape : List ℤ) : MainflowResult :=
  match image_load_file fixedLoaderShape none with
  | Except.error e => MainflowResult.fixedLoadFailed e
  | Except.ok fshape =>
    match image_load_file movedLoaderShape (some fshape) with
    | Except.error e => MainflowResult.movedLoadFailed e
    | Except.ok mshape => MainflowResult.registrarRan fshape mshape

/-- Source: `main` (src/pfire.cpp:20-44): with fewer than three positional arguments
(`argc < 4`) it prints usage and returns 0; otherwise it runs `mainflow`
(whose failures are caught internally) and returns 0. -/
def pfire_main (argc : ℕ) (fixedLoaderShape movedLoaderShape : List ℤ) : ℤ :=
  if argc < 4 then 0
  else
    let _ := mainflow fixedLoaderShape movedLoaderShape
    0

/-- C9 counterexample: with a 4×4×1 fixed image and a 5×4×1 moved image the
moved load fails with the descriptive shape-mismatch error and the registrar
never runs, yet the executable still exits with code 0 — refuting the claimed
non-zero exit code on load failure (the executable also takes three positional
arguments, not one). -/
theorem pfire_main_claim_false :
    mainflow [4, 4, 1] [5, 4, 1] =
      MainflowResult.movedLoadFailed "New image must have same shape as existing" ∧
    pfire_main 4 [4, 4, 1] [5, 4, 1] = 0 :=
  ⟨rfl, rfl⟩

/-- C9 (amended): the enclosing executable takes three positional arguments
(fixed path, moved path, node spacing); with fewer it prints usage and exits.
Its exit code is 0 on every path — configuration and load errors are caught,
reported to stderr, and `mainflow` returns early — and when the moved image's
probed shape differs from the fixed image's stored shape, loading fails with
the descriptive error `"New image must have same shape as existing"` and the
registrar never runs. -/
theorem pfire_main_spec :
    (∀ (argc : ℕ) (fs ms : List ℤ), pfire_main argc fs ms = 0) ∧
    (∀ (fs ms exShape : List ℤ),
      image_load_file fs none = Except.ok exShape →
      all_true (fun a b : ℤ => a == b) ms exShape = false →
      mainflow fs ms =
        MainflowResult.movedLoadFailed "New image must have same shape as existing") := by
  constructor
  · intro argc fs ms
    by_cases h : argc < 4 <;> simp [pfire_main, h]
  · intro fs ms exShape hfix hmoved
    rw [mainflow, hfix]
    simp [image_load_file, hmoved]

/-- C9 witness: the amended theorem applied to the concrete 4×4×1 fixed and
5×4×1 moved loader shapes. -/
theorem pfire_main_spec_witness :
    pfire_main 4 [4, 4, 1] [5, 4, 1] = 0 ∧
    image_load_file [4, 4, 1] none = Except.ok [4, 4, 1] ∧
    all_true (fun a b : ℤ => a == b) [5, 4, 1] [4, 4, 1] = false ∧
    mainflow [4, 4, 1] [5, 4, 1] =
      MainflowResult.movedLoadFailed "New image must have same shape as existing" :=
  ⟨pfire_main_spec.1 4 [4, 4, 1] [5, 4, 1], rfl, rfl,
   pfire_main_spec.2 [4, 4, 1] [5, 4, 1] [4, 4, 1] rfl rfl⟩

/-! ## Grid points and the finite-difference gradient
(fd::gradient_to_global_unique, src/unnamed/part_004) -/

/-- A grid point (i, j, k).  Local (haloed) arrays are indexed by all of ℤ³,
global arrays only by the owned cells. -/
structure Pt where
  i : ℤ
  j : ℤ
  k : ℤ
deriving DecidableEq

/-- The global mesh shape (Nx, Ny, Nz) passed to `DMDACreate3d`. -/
structure MeshShape where
  nx : ℤ
  ny : ℤ
  nz : ℤ
deriving DecidableEq

/-- Whether `DMDAGetCorners` places (i,j,k) among the owned cells; the model is
a single rank owning the whole grid, so this is just domain membership. -/
def MeshShape.owns (sh : MeshShape) (p : Pt) : Bool :=
  decide (0 ≤ p.i) && decide (p.i < sh.nx) && decide (0 ≤ p.j) &&
    decide (p.j < sh.ny) && decide (0 ≤ p.k) && decide (p.k < sh.nz)

/-- Source: `intvector ofs = {0,0,0}; ofs[dim] = 1;` from part_004. -/
def ofsVec (dim : ℕ) : Pt :=
  ⟨if dim = 0 then 1 else 0, if dim = 1 then 1 else 0, if dim = 2 then 1 else 0⟩

def Pt.add (p q : Pt) : Pt := ⟨p.i + q.i, p.j + q.j, p.k + q.k⟩

def Pt.sub (p q : Pt) : Pt := ⟨p.i - q.i, p.j - q.j, p.k - q.k⟩

/-- Source: `fd::gradient_to_global_unique` (src/unnamed/part_004): for every owned
cell, `grad[k][j][i] = 0.5*(img[k+ofs2][j+ofs1][i+ofs0] −
img[k-ofs2][j-ofs1][i-ofs0])`, written into a freshly created (zero) global
vector on the same DMDA. -/
def gradient_to_global_unique (sh : MeshShape) (localvec : Pt → ℚ) (dim : ℕ) :
    Pt → ℚ :=
  fun p =>
    if sh.owns p then
      (1 / 2) * (localvec (p.add (ofsVec dim)) - localvec (p.sub (ofsVec dim)))
    else 0

/-- The neighbouring cell of `p` in the positive `dim` direction. -/
def nbrPlus (p : Pt) (dim : ℕ) : Pt :=
  match dim with
  | 0 => ⟨p.i + 1, p.j, p.k⟩
  | 1 => ⟨p.i, p.j + 1, p.k⟩
  | 2 => ⟨p.i, p.j, p.k + 1⟩
  | _ + 3 => p

/-- The neighbouring cell of `p` in the negative `dim` direction. -/
def nbrMinus (p : Pt) (dim : ℕ) : Pt :=
  match dim with
  | 0 => ⟨p.i - 1, p.j, p.k⟩
  | 1 => ⟨p.i, p.j - 1, p.k⟩
  | 2 => ⟨p.i, p.j, p.k - 1⟩
  | _ + 3 => p

theorem gradient_nbr (sh : MeshShape) (localvec : Pt → ℚ) (dim : ℕ) (p : Pt)
    (hdim : dim < 3) (hown : sh.owns p = true) :
    gradient_to_global_unique sh localvec dim p =
      (1 / 2) * (localvec (nbrPlus p dim) - localvec (nbrMinus p dim)) := by
  rw [gradient_to_global_unique, if_pos hown]
  match dim, hdim with
  | 0, _ => simp [ofsVec, Pt.add, Pt.sub, nbrPlus, nbrMinus]
  | 1, _ => simp [ofsVec, Pt.add, Pt.sub, nbrPlus, nbrMinus]
  | 2, _ => simp [ofsVec, Pt.add, Pt.sub, nbrPlus, nbrMinus]

/-- C8: the finite-difference gradient along axis `dim` sets, at every owned
cell, the output to `0.5 · (src at the positive-dim neighbour − src at the
negative-dim neighbour)`, and the result lives on a global vector of the same
mesh (zero at the non-owned slots of the freshly created global vector). -/
theorem gradient_to_global_unique_spec (sh : MeshShape) (localvec : Pt → ℚ)
    (dim : ℕ) (hdim : dim < 3) :
    (∀ p : Pt, sh.owns p = true →
      gradient_to_global_unique sh localvec dim p =
        (1 / 2) * (localvec (nbrPlus p dim) - localvec (nbrMinus p dim))) ∧
    (∀ p : Pt, sh.owns p = false →
      gradient_to_global_unique sh localvec dim p = 0) := by
  refine ⟨fun p hown => gradient_nbr sh localvec dim p hdim hown, fun p hout => ?_⟩
  rw [gradient_to_global_unique, hout]
  simp

/-- Concrete local field for witnesses: value `i` at cell (i, j, k). -/
def rampField : Pt → ℚ := fun p => (p.i : ℚ)

/-- C8 witness: the gradient theorem on a 3×1×1 mesh, ramp data, axis 0, at the
owned cell (1,0,0). -/
theorem gradient_to_global_unique_spec_witness :
    (0 : ℕ) < 3 ∧
    (MeshShape.mk 3 1 1).owns ⟨1, 0, 0⟩ = true ∧
    gradient_to_global_unique ⟨3, 1, 1⟩ rampField 0 ⟨1, 0, 0⟩ =
      (1 / 2) * (rampField (nbrPlus ⟨1, 0, 0⟩ 0) - rampField (nbrMinus ⟨1, 0, 0⟩ 0)) ∧
    (MeshShape.mk 3 1 1).owns ⟨3, 0, 0⟩ = false ∧
    gradient_to_global_unique ⟨3, 1, 1⟩ rampField 0 ⟨3, 0, 0⟩ = 0 :=
  ⟨by decide, by decide,
   (gradient_to_global_unique_spec ⟨3, 1, 1⟩ rampField 0 (by decide)).1 ⟨1, 0, 0⟩ (by decide),
   by decide,
   (gradient_to_global_unique_spec ⟨3, 1, 1⟩ rampField 0 (by decide)).2 ⟨3, 0, 0⟩ (by decide)⟩

/-! ## System-matrix assembly (Elastic::calculate_tmat, src/elastic.cpp:194-237) -/

/-- The average-intensity temporary of `calculate_tmat`: `VecSet(tmp, -1.0)`
followed by `VecAXPBYPCZ(tmp, 0.5, 0.5, 1, fixed, registered)`, i.e.
`0.5·f + 0.5·r + 1·(−1)`. -/
def avgTmp (f r : Pt → ℚ) : Pt → ℚ :=
  fun p => (1 / 2) * f p + (1 / 2) * r p + 1 * (-1)

/-- Source: `DMGlobalToLocal(…, INSERT_VALUES, localtmp)`: owned slots of the local
vector receive the global values; slots beyond the scatter (the out-of-domain
halo) keep the local vector's prior content `halo`, which this model leaves as
an explicit parameter (its value is fixed by the external library's boundary
policy, cf. the DM_BOUNDARY_GHOSTED request in `Image::initialize_dmda`). -/
def globalToLocal (sh : MeshShape) (g : Pt → ℚ) (halo : Pt → ℚ) : Pt → ℚ :=
  fun p => if sh.owns p then g p else halo p

/-- Modelled from the spec: `fd::gradient_existing` is called by
`calculate_tmat` but its body is not among the provided sources; per spec §4.2
it applies the same central-difference kernel as
`fd::gradient_to_global_unique`, writing into an existing global temporary. -/
def gradient_existing (sh : MeshShape) (localvec : Pt → ℚ) (dim : ℕ) : Pt → ℚ :=
  gradient_to_global_unique sh localvec dim

/-- Modelled from the spec (§4.5 stacked-vector layout, which
`WorkSpace::scatter_grads_to_stacked` implements outside the provided
sources): the stacked block vector holds gradient block `d` in rows `(d, ·)`
for `d < D` and the scaled luminance temporary (`VecScale(tmp, -1.0)` of the
average-intensity temporary) in rows `(D, ·)`. -/
def calculate_tmat_stacked (sh : MeshShape) (D : ℕ) (f r halo : Pt → ℚ) :
    ℕ → Pt → ℚ :=
  fun b p =>
    if b < D then
      gradient_existing sh (globalToLocal sh (avgTmp f r) halo) b p
    else
      (-1) * avgTmp f r p

/-- Source: `Elastic::calculate_tmat` (src/elastic.cpp:194-237): duplicate the basis
matrix (`MatDuplicate(map.basis(), MAT_COPY_VALUES, tmat)`) and left-diagonal
scale it by the stacked vector (`MatDiagonalScale(tmat, stacktmp, nullptr)`),
so entry `((b,p), c)` of the result is the stacked entry at `(b,p)` times the
basis entry. -/
def calculate_tmat {J : Type} (sh : MeshShape) (D : ℕ) (f r halo : Pt → ℚ)
    (basis : ℕ → Pt → J → ℚ) : ℕ → Pt → J → ℚ :=
  fun b p c => calculate_tmat_stacked sh D f r halo b p * basis b p c

/-- The average image `(f + r)/2` named by the claim. -/
def avgImage (f r : Pt → ℚ) : Pt → ℚ :=
  fun p => (f p + r p) / 2

/-- C2: `calculate_tmat` builds `T = diag(v) · B` where `B` is the basis matrix
and `v` is the stacked block vector `[g_0 | … | g_{D-1} | 1 − (f+r)/2]`: at
every owned cell whose `d`-stencil lies in the owned domain, the spatial row
`(d, p)` of `T` is the basis row scaled by the central-difference gradient
along `d` of the average image `(f+r)/2` (the constant −1 offset of the
temporary cancels in the difference), and the luminance row `(D, p)` is the
basis row scaled by `1 − (f+r)/2` at `p`. -/
theorem calculate_tmat_spec {J : Type} (sh : MeshShape) (D : ℕ) (f r halo : Pt → ℚ)
    (basis : ℕ → Pt → J → ℚ) (hD : D ≤ 3) :
    (∀ d : ℕ, d < D → ∀ p : Pt, sh.owns p = true →
      sh.owns (nbrPlus p d) = true → sh.owns (nbrMinus p d) = true →
      ∀ c : J, calculate_tmat sh D f r halo basis d p c =
        ((1 / 2) * (avgImage f r (nbrPlus p d) - avgImage f r (nbrMinus p d))) *
          basis d p c) ∧
    (∀ (p : Pt) (c : J), calculate_tmat sh D f r halo basis D p c =
      (1 - avgImage f r p) * basis D p c) := by
  constructor
  · intro d hd p hp hplus hminus c
    rw [calculate_tmat, calculate_tmat_stacked]
    rw [if_pos hd, gradient_existing,
      gradient_nbr sh _ d p (lt_of_lt_of_le hd hD) hp]
    simp only [globalToLocal]
    rw [if_pos hplus, if_pos hminus]
    simp only [avgTmp, avgImage]
    ring
  · intro p c
    rw [calculate_tmat, calculate_tmat_stacked, if_neg (lt_irrefl D)]
    simp only [avgTmp, avgImage]
    ring

/-- Concrete fixed image for the C2 witness: intensity `2·i`. -/
def cFixed : Pt → ℚ := fun p => 2 * (p.i : ℚ)

/-- Concrete registered image for the C2 witness: identically zero. -/
def cMoved : Pt → ℚ := fun _ => 0

/-- Concrete stale halo content for the C2 witness: identically zero. -/
def cHalo : Pt → ℚ := fun _ => 0

/-- Concrete one-column basis matrix for the C2 witness. -/
def cBasis : ℕ → Pt → Unit → ℚ := fun _ _ _ => 1

/-- C2 witness: the assembly theorem on a 3×1×1 mesh with one spatial
dimension, evaluated at the interior cell (1,0,0). -/
theorem calculate_tmat_spec_witness :
    (1 : ℕ) ≤ 3 ∧ (0 : ℕ) < 1 ∧
    (MeshShape.mk 3 1 1).owns ⟨1, 0, 0⟩ = true ∧
    (MeshShape.mk 3 1 1).owns (nbrPlus ⟨1, 0, 0⟩ 0) = true ∧
    (MeshShape.mk 3 1 1).owns (nbrMinus ⟨1, 0, 0⟩ 0) = true ∧
    calculate_tmat ⟨3, 1, 1⟩ 1 cFixed cMoved cHalo cBasis 0 ⟨1, 0, 0⟩ () =
      ((1 / 2) * (avgImage cFixed cMoved (nbrPlus ⟨1, 0, 0⟩ 0) -
          avgImage cFixed cMoved (nbrMinus ⟨1, 0, 0⟩ 0))) * cBasis 0 ⟨1, 0, 0⟩ () ∧
    calculate_tmat ⟨3, 1, 1⟩ 1 cFixed cMoved cHalo cBasis 1 ⟨1, 0, 0⟩ () =
      (1 - avgImage cFixed cMoved ⟨1, 0, 0⟩) * cBasis 1 ⟨1, 0, 0⟩ () :=
  ⟨by decide, by decide, by decide, by decide, by decide,
   (calculate_tmat_spec ⟨3, 1, 1⟩ 1 cFixed cMoved cHalo cBasis (by decide)).1 0
     (by decide) ⟨1, 0, 0⟩ (by decide) (by decide) (by decide) (),
   (calculate_tmat_spec ⟨3, 1, 1⟩ 1 cFixed cMoved cHalo cBasis (by decide)).2 ⟨1, 0, 0⟩ ()⟩

/-! ## Normal matrix and block preconditioner
(Elastic::innerstep and Elastic::block_precondition, src/elastic.cpp) -/

/-- Source: `MatTransposeMatMult(tmat, tmat, …)` in `innerstep`: the normal matrix
`TᵀT` over the finitely many stacked rows `Fin R`; coefficient indices are ℕ,
flattened as in the source (`D·Mnodes` spatial entries then `Mnodes`
luminance entries). -/
def normalMatrix {R : ℕ} (T : Fin R → ℕ → ℚ) : ℕ → ℕ → ℚ :=
  fun i j => Finset.univ.sum (fun rr : Fin R => T rr i * T rr j)

/-- Source: `Elastic::block_precondition` (src/elastic.cpp:239-299).  The split index
is `crit_idx = m_p_map->size() * m_p_map->m_ndim`; modelled from the spec for
the missing Map sources: `size()` is the node count `Mnodes = M` and `m_ndim`
is the spatial dimension count `D`, the coefficient vector having `(D+1)·M`
entries (spec §3, §4.4).  The diagonal of the normal matrix is summed over the
spatial rows `[0, crit_idx)` and the luminance rows `[crit_idx, (D+1)·M)`, the
sums are divided by `crit_idx` and by `M`, and the matrix is left-scaled by
the vector that is 1 on spatial rows and `norm0/norm1` on luminance rows
(`MatDiagonalScale(normmat, diag, nullptr)`). -/
def block_precondition (D M : ℕ) (N : ℕ → ℕ → ℚ) : ℕ → ℕ → ℚ :=
  let crit := M * D
  let total := (D + 1) * M
  let norm0 := (Finset.range crit).sum (fun i => N i i)
  let norm1 := (Finset.Ico crit total).sum (fun i => N i i)
  let avg0 := norm0 / (crit : ℚ)
  let avg1 := norm1 / (M : ℚ)
  let lum_scale := avg0 / avg1
  fun i j => (if i < crit then 1 else lum_scale) * N i j

/-- The mean of the diagonal of `P` over the spatial block (first `D·M` rows). -/
def meanDiagSpatial (D M : ℕ) (P : ℕ → ℕ → ℚ) : ℚ :=
  (Finset.range (D * M)).sum (fun i => P i i) / ((D * M : ℕ) : ℚ)

/-- The mean of the diagonal of `P` over the intensity block (last `M` rows). -/
def meanDiagLum (D M : ℕ) (P : ℕ → ℕ → ℚ) : ℚ :=
  (Finset.range M).sum (fun i => P (D * M + i) (D * M + i)) / ((M : ℕ) : ℚ)

/-- The system matrix assembled by `Elastic::innerstep`
(src/elastic.cpp:130-147): `normmat = TᵀT`, then `block_precondition()`, then
`MatAXPY(normmat, lambda, map.laplacian(), DIFFERENT_NONZERO_PATTERN)` — the
preconditioning is applied before `λ·L` is added. -/
def innerstep_system {R : ℕ} (D M : ℕ) (lam : ℚ) (T : Fin R → ℕ → ℚ)
    (L : ℕ → ℕ → ℚ) : ℕ → ℕ → ℚ :=
  fun i j => block_precondition D M (normalMatrix T) i j + lam * L i j

/-- C3: `block_precondition` sums the diagonal of `TᵀT` separately over the
`D·M` spatial rows and the `M` intensity rows, averages each over its row
count, and left-scales by the diagonal vector that is 1 on spatial rows and
`avg_spatial/avg_lum` on intensity rows; consequently the preconditioned
normal matrix has equal mean diagonal over the two blocks, and `innerstep`
adds `λ·L` only after this preconditioning. -/
theorem block_precondition_spec {R : ℕ} (D M : ℕ) (T : Fin R → ℕ → ℚ)
    (L : ℕ → ℕ → ℚ) (lam : ℚ) (hD : 0 < D) (hM : 0 < M)
    (hlum : (Finset.Ico (M * D) ((D + 1) * M)).sum
      (fun i => normalMatrix T i i) ≠ 0) :
    meanDiagSpatial D M (block_precondition D M (normalMatrix T)) =
      meanDiagLum D M (block_precondition D M (normalMatrix T)) ∧
    (∀ i j, innerstep_system D M lam T L i j =
      block_precondition D M (normalMatrix T) i j + lam * L i j) := by
  refine ⟨?_, fun i j => rfl⟩
  set N := normalMatrix T with hN
  have hMD : M * D = D * M := Nat.mul_comm M D
  have hcast : ((M : ℚ)) ≠ 0 := Nat.cast_ne_zero.mpr hM.ne'
  have hspatial :
      meanDiagSpatial D M (block_precondition D M N) =
        (Finset.range (M * D)).sum (fun i => N i i) / ((M * D : ℕ) : ℚ) := by
    rw [meanDiagSpatial, ← hMD]
    congr 1
    refine Finset.sum_congr rfl ?_
    intro i hi
    rw [Finset.mem_range] at hi
    simp only [block_precondition]
    rw [if_pos hi, one_mul]
  have hlumsum :
      (Finset.range M).sum
          (fun i => block_precondition D M N (D * M + i) (D * M + i)) =
        (((Finset.range (M * D)).sum (fun i => N i i) / ((M * D : ℕ) : ℚ)) /
          ((Finset.Ico (M * D) ((D + 1) * M)).sum (fun i => N i i) / (M : ℚ))) *
          (Finset.Ico (M * D) ((D + 1) * M)).sum (fun i => N i i) := by
    have hstep : ∀ i ∈ Finset.range M,
        block_precondition D M N (D * M + i) (D * M + i) =
          (((Finset.range (M * D)).sum (fun j => N j j) / ((M * D : ℕ) : ℚ)) /
            ((Finset.Ico (M * D) ((D + 1) * M)).sum (fun j => N j j) / (M : ℚ))) *
            N (D * M + i) (D * M + i) := by
      intro i _
      simp only [block_precondition]
      rw [if_neg (by omega)]
    rw [Finset.sum_congr rfl hstep, ← Finset.mul_sum]
    congr 1
    have htot : (D + 1) * M - M * D = M := by ring_nf; omega
    rw [Finset.sum_Ico_eq_sum_range, htot]
    refine Finset.sum_congr rfl ?_
    intro i _
    rw [hMD]
  rw [hspatial, meanDiagLum, hlumsum]
  set s0 := (Finset.range (M * D)).sum (fun i => N i i) with hs0
  set s1 := (Finset.Ico (M * D) ((D + 1) * M)).sum (fun i => N i i) with hs1
  have hMD0 : (((M * D : ℕ)) : ℚ) ≠ 0 :=
    Nat.cast_ne_zero.mpr (Nat.mul_ne_zero hM.ne' hD.ne')
  field_simp
  ring

/-- Concrete two-row system matrix for the C3 witness. -/
def cT : Fin 2 → ℕ → ℚ := fun rr i => if (rr : ℕ) = i then 1 else 0

/-- Concrete Laplacian for the C3 and C5 witnesses. -/
def cL : ℕ → ℕ → ℚ := fun i j => if i = j then 1 else 0

/-- C3 witness: the preconditioner theorem on a concrete one-dimensional map
with a single node (`D = M = 1`). -/
theorem block_precondition_spec_witness :
    (0 : ℕ) < 1 ∧
    (Finset.Ico (1 * 1) ((1 + 1) * 1)).sum (fun i => normalMatrix cT i i) ≠ 0 ∧
    (meanDiagSpatial 1 1 (block_precondition 1 1 (normalMatrix cT)) =
        meanDiagLum 1 1 (block_precondition 1 1 (normalMatrix cT)) ∧
      (∀ i j, innerstep_system 1 1 20 cT cL i j =
        block_precondition 1 1 (normalMatrix cT) i j + 20 * cL i j)) :=
  ⟨by norm_num, by norm_num [normalMatrix, cT, Fin.sum_univ_two],
   block_precondition_spec 1 1 cT cL 20 (by norm_num) (by norm_num)
     (by norm_num [normalMatrix, cT, Fin.sum_univ_two])⟩

/-! ## Convergence measure and the inner loop
(Elastic::innerloop, src/elastic.cpp:94-128, elastic.hpp:45-46) -/

/-- Source: `VecMax`: the largest entry of the vector (0 for an empty vector, which
PETSc never produces). -/
def vecMax : List ℚ → ℚ
  | [] => 0
  | x :: xs => xs.foldl max x

/-- Source: `VecMin`: the smallest entry of the vector. -/
def vecMin : List ℚ → ℚ
  | [] => 0
  | x :: xs => xs.foldl min x

/-- Source: `amax = std::max(std::fabs(posmax), std::fabs(negmax))`
(src/elastic.cpp:115-120). -/
def amaxOf (xs : List ℚ) : ℚ := max |vecMax xs| |vecMin xs|

/-- The infinity norm of a vector: the largest absolute value of an entry. -/
def infNorm : List ℚ → ℚ
  | [] => 0
  | x :: xs => (xs.map (fun y => |y|)).foldl max |x|

theorem foldl_max_init_le (l : List ℚ) : ∀ a : ℚ, a ≤ l.foldl max a := by
  induction l with
  | nil => intro a; simp
  | cons b t ih =>
    intro a
    exact le_trans (le_max_left a b) (ih (max a b))

theorem le_foldl_max_of_mem (l : List ℚ) :
    ∀ (a x : ℚ), x ∈ l → x ≤ l.foldl max a := by
  induction l with
  | nil => intro a x hx; cases hx
  | cons b t ih =>
    intro a x hx
    rcases List.mem_cons.mp hx with rfl | hxt
    · exact le_trans (le_max_right a x) (foldl_max_init_le t (max a x))
    · exact ih (max a b) x hxt

theorem foldl_max_choice (l : List ℚ) :
    ∀ a : ℚ, l.foldl max a = a ∨ l.foldl max a ∈ l := by
  induction l with
  | nil => intro a; left; rfl
  | cons b t ih =>
    intro a
    rcases ih (max a b) with h | h
    · rcases max_choice a b with hab | hab
      · left; simpa [hab] using h
      · right; rw [List.foldl_cons, h, hab]; exact List.mem_cons_self b t
    · right; exact List.mem_cons_of_mem b h

theorem foldl_min_init_le (l : List ℚ) : ∀ a : ℚ, l.foldl min a ≤ a := by
  induction l with
  | nil => intro a; simp
  | cons b t ih =>
    intro a
    exact le_trans (ih (min a b)) (min_le_left a b)

theorem foldl_min_le_of_mem (l : List ℚ) :
    ∀ (a x : ℚ), x ∈ l → l.foldl min a ≤ x := by
  induction l with
  | nil => intro a x hx; cases hx
  | cons b t ih =>
    intro a x hx
    rcases List.mem_cons.mp hx with rfl | hxt
    · exact le_trans (foldl_min_init_le t (min a x)) (min_le_right a x)
    · exact ih (min a b) x hxt

theorem foldl_min_choice (l : List ℚ) :
    ∀ a : ℚ, l.foldl min a = a ∨ l.foldl min a ∈ l := by
  induction l with
  | nil => intro a; left; rfl
  | cons b t ih =>
    intro a
    rcases ih (min a b) with h | h
    · rcases min_choice a b with hab | hab
      · left; simpa [hab] using h
      · right; rw [List.foldl_cons, h, hab]; exact List.mem_cons_self b t
    · right; exact List.mem_cons_of_mem b h

theorem amax_eq_infNorm (xs : List ℚ) (h : xs ≠ []) : amaxOf xs = infNorm xs := by
  match xs, h with
  | x :: t, _ =>
    rw [amaxOf, vecMax, vecMin, infNorm]
    have habs_le : ∀ y : ℚ, y = x ∨ y ∈ t →
        |y| ≤ (t.map (fun z => |z|)).foldl max |x| := by
      intro y hy
      rcases hy with rfl | hy
      · exact foldl_max_init_le _ |y|
      · exact le_foldl_max_of_mem _ |x| |y| (List.mem_map_of_mem _ hy)
    have hmax_entry : t.foldl max x = x ∨ t.foldl max x ∈ t := foldl_max_choice t x
    have hmin_entry : t.foldl min x = x ∨ t.foldl min x ∈ t := foldl_min_choice t x
    refine le_antisymm (max_le (habs_le _ hmax_entry) (habs_le _ hmin_entry)) ?_
    have hentry_bound : ∀ y : ℚ, y = x ∨ y ∈ t →
        |y| ≤ max |t.foldl max x| |t.foldl min x| := by
      intro y hy
      have hup : y ≤ t.foldl max x := by
        rcases hy with rfl | hy
        · exact foldl_max_init_le t y
        · exact le_foldl_max_of_mem t x y hy
      have hdown : t.foldl min x ≤ y := by
        rcases hy with rfl | hy
        · exact foldl_min_init_le t y
        · exact foldl_min_le_of_mem t x y hy
      rw [max_comm]
      exact abs_le_max_abs_abs hdown hup
    rcases foldl_max_choice (t.map (fun z => |z|)) |x| with hA | hA
    · rw [hA]
      exact hentry_bound x (Or.inl rfl)
    · obtain ⟨y, hy, hyA⟩ := List.mem_map.mp hA
      rw [← hyA]
      exact hentry_bound y (Or.inr hy)

/-- Source: `integer m_max_iter = 50` (src/elastic.hpp:45). -/
def m_max_iter : ℕ := 50

/-- Source: `floating m_convergence_thres = 0.1` (src/elastic.hpp:46). -/
def m_convergence_thres : ℚ := 1 / 10

/-- The body of `Elastic::innerloop`'s `for` loop, with the `innerstep` call
and its state effects abstracted into a step oracle `step lam inum state` and
the observation `delta` (the solved increment `m_delta` read back by
`VecMax`/`VecMin`).  Returns the final state together with the trace of
`lambda` values passed to the executed `innerstep` calls; the loop breaks as
soon as `amax < thresh`. -/
def innerloop_go {σ : Type} (step : ℚ → ℕ → σ → σ) (delta : σ → List ℚ)
    (thresh : ℚ) (lam : ℚ) : ℕ → ℕ → σ → σ × List ℚ
  | 0, _, s => (s, [])
  | fuel + 1, inum, s =>
    let s' := step lam inum s
    if amaxOf (delta s') < thresh then (s', [lam])
    else
      let rest := innerloop_go step delta thresh lam fuel (inum + 1) s'
      (rest.1, lam :: rest.2)

/-- Source: `Elastic::innerloop` (src/elastic.cpp:94-128): `floating lambda = 20.0` is
set once before the loop; the loop runs `inum = 1 … m_max_iter`, each
iteration calling `innerstep(lambda, inum)` and breaking when
`amax < m_convergence_thres`. -/
def innerloop {σ : Type} (step : ℚ → ℕ → σ → σ) (delta : σ → List ℚ) (s0 : σ) :
    σ × List ℚ :=
  innerloop_go step delta m_convergence_thres 20 m_max_iter 1 s0

/-- The state after `n` executed iterations of the loop (the loop always
passes `lambda = 20` and the iteration counter starts at 1). -/
def loopState {σ : Type} (step : ℚ → ℕ → σ → σ) (s0 : σ) : ℕ → σ
  | 0 => s0
  | n + 1 => step 20 (n + 1) (loopState step s0 n)

theorem innerloop_go_length {σ : Type} (step : ℚ → ℕ → σ → σ)
    (delta : σ → List ℚ) (thresh lam : ℚ) :
    ∀ (fuel inum : ℕ) (s : σ),
      (innerloop_go step delta thresh lam fuel inum s).2.length ≤ fuel := by
  intro fuel
  induction fuel with
  | zero => intro inum s; simp [innerloop_go]
  | succ n ih =>
    intro inum s
    rw [innerloop_go]
    by_cases h : amaxOf (delta (step lam inum s)) < thresh
    · simp [h]
    · simp only [if_neg h, List.length_cons]
      exact Nat.succ_le_succ (ih (inum + 1) (step lam inum s))

theorem innerloop_go_lambda {σ : Type} (step : ℚ → ℕ → σ → σ)
    (delta : σ → List ℚ) (thresh lam : ℚ) :
    ∀ (fuel inum : ℕ) (s : σ) (lamv : ℚ),
      lamv ∈ (innerloop_go step delta thresh lam fuel inum s).2 → lamv = lam := by
  intro fuel
  induction fuel with
  | zero => intro inum s lamv h; simp [innerloop_go] at h
  | succ n ih =>
    intro inum s lamv h
    rw [innerloop_go] at h
    by_cases hc : amaxOf (delta (step lam inum s)) < thresh
    · simp [hc] at h
      exact h
    · simp only [if_neg hc, List.mem_cons] at h
      rcases h with rfl | h
      · rfl
      · exact ih (inum + 1) (step lam inum s) lamv h

theorem innerloop_go_no_early_exit {σ : Type} (step : ℚ → ℕ → σ → σ)
    (delta : σ → List ℚ) (thresh : ℚ) (s0 : σ) :
    ∀ (fuel m : ℕ),
      (∀ n : ℕ,
        n + 1 < (innerloop_go step delta thresh 20 fuel (m + 1)
          (loopState step s0 m)).2.length →
        ¬ amaxOf (delta (loopState step s0 (m + n + 1))) < thresh) ∧
      ((innerloop_go step delta thresh 20 fuel (m + 1)
          (loopState step s0 m)).2.length < fuel →
        amaxOf (delta (loopState step s0
          (m + (innerloop_go step delta thresh 20 fuel (m + 1)
            (loopState step s0 m)).2.length))) < thresh) := by
  intro fuel
  induction fuel with
  | zero =>
    intro m
    constructor
    · intro n hn
      simp [innerloop_go] at hn
    · intro hlt
      simp [innerloop_go] at hlt
  | succ f ih =>
    intro m
    have hstep : step 20 (m + 1) (loopState step s0 m) = loopState step s0 (m + 1) := rfl
    by_cases hc : amaxOf (delta (loopState step s0 (m + 1))) < thresh
    · constructor
      · intro n hn
        rw [innerloop_go] at hn
        simp only [hstep, if_pos hc, List.length_cons, List.length_nil] at hn
        omega
      · intro _
        have hlen : (innerloop_go step delta thresh 20 (f + 1) (m + 1)
            (loopState step s0 m)).2.length = 1 := by
          rw [innerloop_go]
          simp [hstep, hc]
        rw [hlen]
        exact hc
    · have hrest := ih (m + 1)
      constructor
      · intro n hn
        rw [innerloop_go] at hn
        simp only [hstep, if_neg hc, List.length_cons] at hn
        cases n with
        | zero => simpa using hc
        | succ k =>
          have := hrest.1 k (by omega)
          have harith : m + 1 + k + 1 = m + (k + 1) + 1 := by omega
          rwa [harith] at this
      · intro hlt
        rw [innerloop_go] at hlt ⊢
        simp only [hstep, if_neg hc, List.length_cons] at hlt ⊢
        have := hrest.2 (by omega)
        have harith : m + 1 + (innerloop_go step delta thresh 20 f (m + 1 + 1)
            (loopState step s0 (m + 1))).2.length =
            m + ((innerloop_go step delta thresh 20 f (m + 1 + 1)
              (loopState step s0 (m + 1))).2.length + 1) := by omega
        rwa [harith] at this

/-- C4: the per-generation inner loop executes at most `m_max_iter = 50`
iterations; after each solve `amax` is `max(|VecMax Δ|, |VecMin Δ|)`, which
equals the infinity norm of the increment, and the loop exits as soon as
`amax` drops below `m_convergence_thres = 0.1`: no earlier executed iteration
was below the threshold, and if the loop stopped before exhausting
`m_max_iter` its last iteration was. -/
theorem innerloop_spec {σ : Type} (step : ℚ → ℕ → σ → σ) (delta : σ → List ℚ)
    (s0 : σ) :
    m_max_iter = 50 ∧ m_convergence_thres = 1 / 10 ∧
    (innerloop step delta s0).2.length ≤ m_max_iter ∧
    (∀ n : ℕ, n + 1 < (innerloop step delta s0).2.length →
      ¬ amaxOf (delta (loopState step s0 (n + 1))) < m_convergence_thres) ∧
    ((innerloop step delta s0).2.length < m_max_iter →
      amaxOf (delta (loopState step s0 ((innerloop step delta s0).2.length))) <
        m_convergence_thres) ∧
    (∀ xs : List ℚ, xs ≠ [] → amaxOf xs = infNorm xs) := by
  have hmain := innerloop_go_no_early_exit step delta m_convergence_thres s0 m_max_iter 0
  refine ⟨rfl, rfl,
    innerloop_go_length step delta m_convergence_thres 20 m_max_iter 1 s0,
    ?_, ?_, fun xs hxs => amax_eq_infNorm xs hxs⟩
  · intro n hn
    have := hmain.1 n (by simpa [innerloop, loopState] using hn)
    simpa [loopState] using this
  · intro hlt
    have := hmain.2 (by simpa [innerloop, loopState] using hlt)
    simpa [innerloop, loopState] using this

/-- Concrete step oracle for the loop witnesses: counts executed iterations. -/
def cStep : ℚ → ℕ → ℕ → ℕ := fun _ _ s => s + 1

/-- Concrete increment observation for the loop witnesses: the first solved
increment is 1, later ones are 0, so the loop converges on iteration 2. -/
def cDelta : ℕ → List ℚ := fun s => if s < 2 then [1] else [0]

theorem innerloop_cStep_eval :
    (innerloop cStep cDelta 0).2 = [20, 20] := by
  rw [innerloop, m_max_iter]
  rw [innerloop_go]
  rw [if_neg (by norm_num [cStep, cDelta, amaxOf, vecMax, vecMin, m_convergence_thres])]
  rw [innerloop_go]
  rw [if_pos (by norm_num [cStep, cDelta, amaxOf, vecMax, vecMin, m_convergence_thres])]

/-- C4 witness: the inner-loop theorem on the concrete oracle `cStep`/`cDelta`,
which runs two iterations and converges on the second. -/
theorem innerloop_spec_witness :
    (0 : ℕ) + 1 < (innerloop cStep cDelta 0).2.length ∧
    ¬ amaxOf (cDelta (loopState cStep 0 (0 + 1))) < m_convergence_thres ∧
    (innerloop cStep cDelta 0).2.length < m_max_iter ∧
    amaxOf (cDelta (loopState cStep 0 ((innerloop cStep cDelta 0).2.length))) <
      m_convergence_thres ∧
    ([3, -7] : List ℚ) ≠ [] ∧
    amaxOf [3, -7] = infNorm [3, -7] := by
  have hlen : (innerloop cStep cDelta 0).2.length = 2 := by
    rw [innerloop_cStep_eval]
    rfl
  have h1 : (0 : ℕ) + 1 < (innerloop cStep cDelta 0).2.length := by omega
  have h2 : (innerloop cStep cDelta 0).2.length < m_max_iter := by
    rw [hlen, m_max_iter]; omega
  exact ⟨h1, (innerloop_spec cStep cDelta 0).2.2.2.1 0 h1,
    h2, (innerloop_spec cStep cDelta 0).2.2.2.2.1 h2,
    by simp,
    (innerloop_spec cStep cDelta 0).2.2.2.2.2 [3, -7] (by simp)⟩

/-- C5: the regularisation weight is 20.0 in every inner iteration of every
generation — `innerloop` sets `lambda = 20.0` once and every executed
`innerstep` call receives exactly that value — and `innerstep` adds exactly
`lambda` times the map's Laplacian to the preconditioned normal matrix. -/
theorem innerloop_lambda_spec :
    (∀ (σ : Type) (step : ℚ → ℕ → σ → σ) (delta : σ → List ℚ) (s0 : σ)
      (lamv : ℚ), lamv ∈ (innerloop step delta s0).2 → lamv = 20) ∧
    (∀ (R D M : ℕ) (T : Fin R → ℕ → ℚ) (L : ℕ → ℕ → ℚ) (i j : ℕ),
      innerstep_system D M 20 T L i j =
        block_precondition D M (normalMatrix T) i j + 20 * L i j) :=
  ⟨fun _ step delta s0 lamv h =>
    innerloop_go_lambda step delta m_convergence_thres 20 m_max_iter 1 s0 lamv h,
   fun _ _ _ _ _ _ _ => rfl⟩

/-- C5 witness: on the concrete loop trace `[20, 20]` the first executed
iteration's lambda is 20, and the concrete `innerstep` system matrix entry
decomposes as preconditioned normal matrix plus `20·L`. -/
theorem innerloop_lambda_spec_witness :
    (20 : ℚ) ∈ (innerloop cStep cDelta 0).2 ∧
    (20 : ℚ) = 20 ∧
    innerstep_system 1 1 20 cT cL 0 0 =
      block_precondition 1 1 (normalMatrix cT) 0 0 + 20 * cL 0 0 := by
  have hmem : (20 : ℚ) ∈ (innerloop cStep cDelta 0).2 := by
    rw [innerloop_cStep_eval]
    simp
  exact ⟨hmem, innerloop_lambda_spec.1 ℕ cStep cDelta 0 20 hmem,
    innerloop_lambda_spec.2 2 1 1 cT cL 0 0⟩

end PFire
